import Mathlib

/-!
Verification of the funsor-based `TraceEnum_ELBO` implementation
(`pyro/contrib/funsor/infer/traceenum_elbo.py`).

The development shallowly embeds the module:

* the term extractor `terms_from_trace` is translated line by line, with the
  in-place update of `node["funsor"]["log_prob"]` modelled by explicit state
  passing (the function returns the updated trace next to the term bundle);
* funsors are modelled semantically: a `Factor` is a set of named inputs
  together with a rational-valued function of assignments.  The semiring used
  by the module is (logaddexp, add); logaddexp and pointwise exponentiation
  are transcendental, so they are abstracted into an evaluation context
  `SemCtx` (any binary operation, unit and unary operation) — every theorem
  holds for all instantiations, so in particular for the real log-sum-exp;
* the funsor library routines (`partial_sum_product`,
  `modified_partial_sum_product`, `sum_product`, `Integrate`, the adjoint
  pass) are not part of the repository sources; they are modelled from the
  specification, as flagged in their doc comments.
-/

namespace PyroElbo

/-- Variable assignments: every named dimension gets a natural number index. -/
abbrev Assign := String → ℕ

/-- A funsor value: a log-space potential over named inputs.  The `inputs`
field mirrors a funsor's `.inputs` mapping, which is an ordered dictionary —
hence a list of names, duplicate-free for well-formed funsors (domains are
global, see `SemCtx.dom`, so the names determine the mapping). -/
structure Factor where
  inputs : List String
  val : Assign → ℚ

/-- A Markov step descriptor (`node["value"]` of a `markov_chain` record):
a set of (previous-name, current-name) pairs; the empty set is the default
descriptor of an ordinary plate.  Python truthiness `if step` is nonemptiness. -/
abbrev Step := Finset (String × String)

/-- One entry of a site's `cond_indep_stack`. -/
structure Frame where
  name : String
  vectorized : Bool

/-- The `node["funsor"]` sub-dictionary of a trace node.  `scale` is kept as a
rational scalar: the code converts it with `float(to_data(...))`, which
requires a scalar funsor. -/
structure FunsorDict where
  log_measure : Option Factor
  value : Factor
  log_prob : Factor
  scale : ℚ

/-- A trace node.  `type_` models `node["type"]` (`"sample"`,
`"markov_chain"`, ...), `fn_subsample` models
`type(node["fn"]).__name__ == "_Subsample"`, `do_not_score` models
`node["infer"].get("_do_not_score", False)`, `value_step` models
`node["value"]` as read for `markov_chain` records, and the two replay flags
model `node.get("replay_active"/"replay_skipped", False)`. -/
structure Node where
  name : String
  type_ : String
  fn_subsample : Bool
  do_not_score : Bool
  is_observed : Bool
  cond_indep_stack : List Frame
  replay_active : Bool
  replay_skipped : Bool
  value_step : Step
  funsor : FunsorDict

/-- A `plate_to_step` dictionary.  A Python dict is insertion-ordered, so the
registered bindings are an ordered entry list (`entries`, later bindings
overriding earlier ones); the keys added in bulk by line 47 from the
`plate_vars` frozenset all carry the empty default descriptor and are kept as
the key set `extra`. -/
structure Pmap where
  entries : List (String × Step)
  extra : Finset String

/-- The key set of the dictionary. -/
def Pmap.keys (m : Pmap) : Finset String :=
  (m.entries.map Prod.fst).toFinset ∪ m.extra

/-- `dict.get(p, {})`: the last binding of `p`, the empty descriptor when
there is none. -/
def Pmap.get (m : Pmap) (p : String) : Step :=
  (((m.entries.filter (fun e => e.1 = p)).map Prod.snd).getLast?).getD ∅

def Pmap.insert (m : Pmap) (p : String) (s : Step) : Pmap :=
  { m with entries := m.entries ++ [(p, s)] }

/-- The `terms` dictionary built by `terms_from_trace` (the Term Bundle). -/
structure TermBundle where
  log_factors : List Factor
  log_measures : List Factor
  scale : ℚ
  plate_vars : Finset String
  measure_vars : Finset String
  plate_to_step : Pmap

/-- Initial bundle: `terms_from_trace` line 20-21. -/
def initBundle : TermBundle :=
  { log_factors := [], log_measures := [], scale := 1,
    plate_vars := ∅, measure_vars := ∅,
    plate_to_step := { entries := [], extra := ∅ } }

/-- A site is processed for densities when it is a `sample` site that is not
an internal `_Subsample` pseudo-site and not marked do-not-score (the negation
of the `continue` condition on lines 26-28). -/
def scored (n : Node) : Prop :=
  n.type_ = "sample" ∧ n.fn_subsample = false ∧ n.do_not_score = false

instance (n : Node) : Decidable (scored n) := by
  unfold scored; infer_instance

/-- Vectorized enclosing-plate names of a site (line 30). -/
def frameVars (n : Node) : Finset String :=
  ((n.cond_indep_stack.filter (fun f => f.vectorized)).map Frame.name).toFinset

/-- Multiplying a log-probability funsor by a scalar scale funsor (line 42). -/
def Factor.mulScale (f : Factor) (c : ℚ) : Factor :=
  { inputs := f.inputs, val := fun σ => f.val σ * c }

/-- The shared-scale candidate test of line 37-38: replay-active, log_prob
inputs meeting the measure variables accumulated so far, scale different
from 1. -/
def scaleCandidate (s : TermBundle) (n : Node) : Prop :=
  n.replay_active = true ∧
    (n.funsor.log_prob.inputs.toFinset ∩ s.measure_vars).Nonempty ∧
    n.funsor.scale ≠ 1

instance (s : TermBundle) (n : Node) : Decidable (scaleCandidate s n) := by
  unfold scaleCandidate; infer_instance

/-- Line 30: union the vectorized `cond_indep_stack` entries into
`plate_vars`. -/
def plateStep (s : TermBundle) (n : Node) : TermBundle :=
  { s with plate_vars := s.plate_vars ∪ frameVars n }

/-- Lines 32-35: append the log-measure (when present) and union the fresh
measure variables. -/
def measureStep (s : TermBundle) (n : Node) : TermBundle :=
  match n.funsor.log_measure with
  | some lm =>
      { s with log_measures := s.log_measures ++ [lm],
               measure_vars := s.measure_vars ∪
                 ((n.funsor.value.inputs.toFinset ∪ {n.name}) \ s.plate_vars) }
  | none => s

/-- Lines 36-42: either adopt the site's scale as the bundle's common scale
(leaving the node untouched), or multiply the scale into the node's stored
log_prob — the latter is the in-place mutation of the trace. -/
def scaleStep (s : TermBundle) (n : Node) : TermBundle × Node :=
  if scaleCandidate s n then
    ({ s with scale := n.funsor.scale }, n)
  else
    (s, { n with funsor :=
      { n.funsor with log_prob := n.funsor.log_prob.mulScale n.funsor.scale } })

/-- Lines 43-45: append the (possibly rescaled) log-density of observed or
not-replay-skipped sites. -/
def factorStep (s : TermBundle) (n : Node) : TermBundle :=
  if n.is_observed = true ∨ n.replay_skipped = false then
    { s with log_factors := s.log_factors ++ [n.funsor.log_prob] }
  else s

/-- Processing of one scored sample site (lines 29-45). -/
def scoredProcess (s : TermBundle) (n : Node) : TermBundle × Node :=
  let s1 := plateStep s n
  let s2 := measureStep s1 n
  let p := scaleStep s2 n
  (factorStep p.1 p.2, p.2)

/-- One iteration of the loop on lines 22-45.  A `markov_chain` record
registers its step descriptor (lines 24-25) and is then skipped by the
`continue` on lines 26-28; any other non-scored record is skipped directly. -/
def processNode (s : TermBundle) (n : Node) : TermBundle × Node :=
  if n.type_ = "markov_chain" then
    ({ s with plate_to_step := s.plate_to_step.insert n.name n.value_step }, n)
  else if scored n then scoredProcess s n
  else (s, n)

/-- The loop over `tr.nodes.items()`, also collecting the written-back nodes
(the Python code mutates the trace in place). -/
def runTrace (s : TermBundle) : List Node → TermBundle × List Node
  | [] => (s, [])
  | n :: rest =>
      let p := processNode s n
      let q := runTrace p.1 rest
      (q.1, p.2 :: q.2)

/-- Line 47: give every plate in `plate_vars` a `plate_to_step` entry,
defaulting to the empty descriptor and preserving registered descriptors
(`terms["plate_to_step"].get(plate, {})` re-stores the registered value). -/
def finalizePmap (m : Pmap) (plates : Finset String) : Pmap :=
  { m with extra := m.extra ∪ plates }

/-- `terms_from_trace` (lines 16-48).  Returns the term bundle together with
the trace as it stands after the call (the code updates
`node["funsor"]["log_prob"]` in place on line 42). -/
def terms_from_trace (tr : List Node) : TermBundle × List Node :=
  let p := runTrace initBundle tr
  ({ p.1 with plate_to_step := finalizePmap p.1.plate_to_step p.1.plate_vars },
   p.2)

/-! ### Componentwise characterization of one loop iteration -/

/-- The fresh measure-variable contribution of one site (line 35), given the
plate variables accumulated up to and including that site. -/
def measureContrib (pv : Finset String) (n : Node) : Finset String :=
  match n.funsor.log_measure with
  | some _ => (n.funsor.value.inputs.toFinset ∪ {n.name}) \ pv
  | none => ∅

theorem scored_not_markov (n : Node) (h : n.type_ = "markov_chain") :
    ¬ scored n := by
  intro hs
  rw [scored, h] at hs
  exact absurd hs.1 (by decide)

theorem processNode_plate_to_step (s : TermBundle) (n : Node) :
    (processNode s n).1.plate_to_step =
      if n.type_ = "markov_chain" then
        s.plate_to_step.insert n.name n.value_step
      else s.plate_to_step := by
  by_cases hm : n.type_ = "markov_chain"
  · simp [processNode, hm]
  · by_cases hs : scored n
    · cases hlm : n.funsor.log_measure with
      | none =>
          simp only [processNode, scoredProcess, factorStep, scaleStep,
            measureStep, plateStep, hm, hs, hlm, if_false, if_true]
          split_ifs <;> rfl
      | some lm =>
          simp only [processNode, scoredProcess, factorStep, scaleStep,
            measureStep, plateStep, hm, hs, hlm, if_false, if_true]
          split_ifs <;> rfl
    · simp [processNode, hm, hs]

theorem processNode_plate_vars (s : TermBundle) (n : Node) :
    (processNode s n).1.plate_vars =
      s.plate_vars ∪ (if scored n then frameVars n else ∅) := by
  by_cases hm : n.type_ = "markov_chain"
  · simp [processNode, hm, scored_not_markov n hm]
  · by_cases hs : scored n
    · cases hlm : n.funsor.log_measure with
      | none =>
          simp only [processNode, scoredProcess, factorStep, scaleStep,
            measureStep, plateStep, hm, hs, hlm, if_false, if_true]
          split_ifs <;> rfl
      | some lm =>
          simp only [processNode, scoredProcess, factorStep, scaleStep,
            measureStep, plateStep, hm, hs, hlm, if_false, if_true]
          split_ifs <;> rfl
    · simp [processNode, hm, hs]

theorem processNode_log_measures (s : TermBundle) (n : Node) :
    (processNode s n).1.log_measures =
      s.log_measures ++
        (if scored n then
          (match n.funsor.log_measure with
           | some lm => [lm]
           | none => []) else []) := by
  by_cases hm : n.type_ = "markov_chain"
  · simp [processNode, hm, scored_not_markov n hm]
  · by_cases hs : scored n
    · cases hlm : n.funsor.log_measure with
      | none =>
          simp only [processNode, scoredProcess, factorStep, scaleStep,
            measureStep, plateStep, hm, hs, hlm, if_false, if_true]
          split_ifs <;> simp
      | some lm =>
          simp only [processNode, scoredProcess, factorStep, scaleStep,
            measureStep, plateStep, hm, hs, hlm, if_false, if_true]
          split_ifs <;> simp
    · simp [processNode, hm, hs]

theorem processNode_measure_vars (s : TermBundle) (n : Node) :
    (processNode s n).1.measure_vars =
      s.measure_vars ∪
        (if scored n then measureContrib (s.plate_vars ∪ frameVars n) n
         else ∅) := by
  by_cases hm : n.type_ = "markov_chain"
  · simp [processNode, hm, scored_not_markov n hm]
  · by_cases hs : scored n
    · cases hlm : n.funsor.log_measure with
      | none =>
          simp only [processNode, scoredProcess, factorStep, scaleStep,
            measureStep, plateStep, measureContrib, hm, hs, hlm, if_false,
            if_true]
          split_ifs <;> simp
      | some lm =>
          simp only [processNode, scoredProcess, factorStep, scaleStep,
            measureStep, plateStep, measureContrib, hm, hs, hlm, if_false,
            if_true]
          split_ifs <;> simp
    · simp [processNode, hm, hs]

/-- The bundle state against which line 37 evaluates the shared-scale
condition: lines 30-35 have already been applied to the site. -/
def preScaleState (s : TermBundle) (n : Node) : TermBundle :=
  measureStep (plateStep s n) n

/-- The node as written back by the default-scale branch (line 42). -/
def nodeScaled (n : Node) : Node :=
  { n with funsor :=
    { n.funsor with log_prob := n.funsor.log_prob.mulScale n.funsor.scale } }

theorem plateStep_scale (s : TermBundle) (n : Node) :
    (plateStep s n).scale = s.scale := rfl

theorem measureStep_scale (s : TermBundle) (n : Node) :
    (measureStep s n).scale = s.scale := by
  cases hlm : n.funsor.log_measure <;> simp [measureStep, hlm]

theorem measureStep_log_factors (s : TermBundle) (n : Node) :
    (measureStep s n).log_factors = s.log_factors := by
  cases hlm : n.funsor.log_measure <;> simp [measureStep, hlm]

theorem scaleStep_fst_scale (s : TermBundle) (n : Node) :
    (scaleStep s n).1.scale =
      if scaleCandidate s n then n.funsor.scale else s.scale := by
  unfold scaleStep; split_ifs <;> rfl

theorem scaleStep_fst_log_factors (s : TermBundle) (n : Node) :
    (scaleStep s n).1.log_factors = s.log_factors := by
  unfold scaleStep; split_ifs <;> rfl

theorem scaleStep_snd (s : TermBundle) (n : Node) :
    (scaleStep s n).2 =
      if scaleCandidate s n then n else nodeScaled n := by
  unfold scaleStep nodeScaled; split_ifs <;> rfl

theorem factorStep_scale (s : TermBundle) (n : Node) :
    (factorStep s n).scale = s.scale := by
  unfold factorStep; split_ifs <;> rfl

theorem factorStep_log_factors (s : TermBundle) (n : Node) :
    (factorStep s n).log_factors =
      s.log_factors ++
        (if n.is_observed = true ∨ n.replay_skipped = false then
          [n.funsor.log_prob] else []) := by
  unfold factorStep; split_ifs <;> simp

theorem scoredProcess_fst_scale (s : TermBundle) (n : Node) :
    (scoredProcess s n).1.scale =
      if scaleCandidate (preScaleState s n) n then n.funsor.scale
      else s.scale := by
  show (factorStep (scaleStep (measureStep (plateStep s n) n) n).1
          (scaleStep (measureStep (plateStep s n) n) n).2).scale = _
  rw [factorStep_scale, scaleStep_fst_scale, measureStep_scale, plateStep_scale,
    preScaleState]

theorem scoredProcess_snd (s : TermBundle) (n : Node) :
    (scoredProcess s n).2 =
      if scaleCandidate (preScaleState s n) n then n else nodeScaled n := by
  show (scaleStep (measureStep (plateStep s n) n) n).2 = _
  rw [scaleStep_snd, preScaleState]

theorem processNode_scale (s : TermBundle) (n : Node) :
    (processNode s n).1.scale =
      if scored n ∧ scaleCandidate (preScaleState s n) n then n.funsor.scale
      else s.scale := by
  by_cases hm : n.type_ = "markov_chain"
  · simp [processNode, hm, scored_not_markov n hm]
  · by_cases hs : scored n
    · simp only [processNode, hm, hs, if_false, if_true]
      rw [scoredProcess_fst_scale]
      by_cases hc : scaleCandidate (preScaleState s n) n <;> simp [hs, hc]
    · simp [processNode, hm, hs]

theorem processNode_snd (s : TermBundle) (n : Node) :
    (processNode s n).2 =
      if scored n ∧ ¬ scaleCandidate (preScaleState s n) n then nodeScaled n
      else n := by
  by_cases hm : n.type_ = "markov_chain"
  · simp [processNode, hm, scored_not_markov n hm]
  · by_cases hs : scored n
    · simp only [processNode, hm, hs, if_false, if_true]
      rw [scoredProcess_snd]
      by_cases hc : scaleCandidate (preScaleState s n) n <;> simp [hs, hc]
    · simp [processNode, hm, hs]

theorem processNode_log_factors (s : TermBundle) (n : Node) :
    (processNode s n).1.log_factors =
      s.log_factors ++
        (if scored n ∧ (n.is_observed = true ∨ n.replay_skipped = false) then
          [(processNode s n).2.funsor.log_prob] else []) := by
  by_cases hm : n.type_ = "markov_chain"
  · simp [processNode, hm, scored_not_markov n hm]
  · by_cases hs : scored n
    · simp only [processNode, hm, hs, if_false, if_true]
      show (factorStep (scaleStep (measureStep (plateStep s n) n) n).1
              (scaleStep (measureStep (plateStep s n) n) n).2).log_factors = _
      rw [factorStep_log_factors, scaleStep_fst_log_factors,
        measureStep_log_factors]
      have hobs : (scaleStep (measureStep (plateStep s n) n) n).2.is_observed
          = n.is_observed := by
        rw [scaleStep_snd]; split_ifs <;> rfl
      have hskip : (scaleStep (measureStep (plateStep s n) n) n).2.replay_skipped
          = n.replay_skipped := by
        rw [scaleStep_snd]; split_ifs <;> rfl
      rw [hobs, hskip]
      simp [plateStep, hs, scoredProcess]
    · simp [processNode, hm, hs]

/-! ### Lemmas about the trace fold -/

theorem runTrace_append (s : TermBundle) (l1 l2 : List Node) :
    runTrace s (l1 ++ l2) =
      ((runTrace (runTrace s l1).1 l2).1,
       (runTrace s l1).2 ++ (runTrace (runTrace s l1).1 l2).2) := by
  induction l1 generalizing s with
  | nil => simp [runTrace]
  | cons n rest ih => simp [runTrace, ih]

theorem runTrace_getElem? (s : TermBundle) (l : List Node) (i : ℕ) (n : Node)
    (h : l[i]? = some n) :
    (runTrace s l).2[i]? =
      some (processNode (runTrace s (l.take i)).1 n).2 := by
  induction l generalizing s i with
  | nil => simp at h
  | cons m rest ih =>
      cases i with
      | zero =>
          simp at h
          subst h
          simp [runTrace]
      | succ j =>
          simp at h
          simp only [runTrace, List.take_succ_cons]
          show ((processNode s m).2 :: (runTrace (processNode s m).1 rest).2)[j + 1]?
            = _
          rw [List.getElem?_cons_succ]
          exact ih (processNode s m).1 j h

/-- Registration of `markov_chain` step descriptors (lines 24-25) as a fold. -/
def registerFold (m : Pmap) (n : Node) : Pmap :=
  if n.type_ = "markov_chain" then m.insert n.name n.value_step else m

theorem runTrace_plate_to_step (s : TermBundle) (l : List Node) :
    (runTrace s l).1.plate_to_step = l.foldl registerFold s.plate_to_step := by
  induction l generalizing s with
  | nil => simp [runTrace]
  | cons n rest ih =>
      simp only [runTrace, List.foldl_cons]
      rw [ih, processNode_plate_to_step, registerFold]

/-- The `markov_chain` registration entry of a node, if any. -/
def regEntry (n : Node) : Option (String × Step) :=
  if n.type_ = "markov_chain" then some (n.name, n.value_step) else none

theorem registerFold_entries (m : Pmap) (n : Node) :
    (registerFold m n).entries = m.entries ++ (regEntry n).toList := by
  unfold registerFold regEntry Pmap.insert
  split_ifs <;> simp

theorem registerFold_extra (m : Pmap) (n : Node) :
    (registerFold m n).extra = m.extra := by
  unfold registerFold Pmap.insert
  split_ifs <;> rfl

theorem foldl_registerFold_entries (l : List Node) (m : Pmap) :
    (l.foldl registerFold m).entries = m.entries ++ l.filterMap regEntry := by
  induction l generalizing m with
  | nil => simp
  | cons n rest ih =>
      simp only [List.foldl_cons, List.filterMap_cons]
      rw [ih, registerFold_entries]
      cases h : regEntry n <;> simp [h]

theorem foldl_registerFold_extra (l : List Node) (m : Pmap) :
    (l.foldl registerFold m).extra = m.extra := by
  induction l generalizing m with
  | nil => rfl
  | cons n rest ih => rw [List.foldl_cons, ih, registerFold_extra]

/-- The step descriptor registered last for name `p` by the `markov_chain`
records of a trace, if any (later registrations override earlier ones, as
for a Python dict assignment). -/
def lastRegistered (tr : List Node) (p : String) : Option Step :=
  (((tr.filterMap regEntry).filter (fun e => e.1 = p)).map Prod.snd).getLast?

/-! ### Spec-side recursions over the trace -/

/-- Spec wording (claim C7): every scored sample site that carries a
log-measure appends that log-measure, in trace order. -/
def specLogMeasures : List Node → List Factor
  | [] => []
  | n :: rest =>
      (if scored n then
        (match n.funsor.log_measure with
         | some lm => [lm]
         | none => []) else []) ++ specLogMeasures rest

/-- Spec wording (claim C7): the per-site fresh measure variables, each
computed against the plate variables accumulated up to and including that
site, unioned over the trace. -/
def specMeasureVars (pv : Finset String) : List Node → Finset String
  | [] => ∅
  | n :: rest =>
      if scored n then
        measureContrib (pv ∪ frameVars n) n ∪
          specMeasureVars (pv ∪ frameVars n) rest
      else specMeasureVars pv rest

theorem runTrace_log_measures (s : TermBundle) (l : List Node) :
    (runTrace s l).1.log_measures = s.log_measures ++ specLogMeasures l := by
  induction l generalizing s with
  | nil => simp [runTrace, specLogMeasures]
  | cons n rest ih =>
      simp only [runTrace]
      rw [ih, processNode_log_measures]
      simp [specLogMeasures]

theorem runTrace_measure_vars (s : TermBundle) (l : List Node) :
    (runTrace s l).1.measure_vars =
      s.measure_vars ∪ specMeasureVars s.plate_vars l := by
  induction l generalizing s with
  | nil => simp [runTrace, specMeasureVars]
  | cons n rest ih =>
      simp only [runTrace]
      rw [ih, processNode_measure_vars, processNode_plate_vars]
      by_cases hs : scored n
      · simp [specMeasureVars, hs, Finset.union_assoc]
      · simp [specMeasureVars, hs]

/-- The condition of lines 26-28 and 44: a scored site whose density is kept
(observed, or not skipped during replay). -/
def contributes (n : Node) : Bool :=
  decide (scored n) && (n.is_observed || !n.replay_skipped)

theorem contributes_iff (n : Node) :
    contributes n = true ↔
      scored n ∧ (n.is_observed = true ∨ n.replay_skipped = false) := by
  simp [contributes]

theorem contributes_processNode (s : TermBundle) (n : Node) :
    contributes (processNode s n).2 = contributes n := by
  rw [processNode_snd]
  split_ifs <;> simp [contributes, nodeScaled, scored]

theorem runTrace_log_factors (s : TermBundle) (l : List Node) :
    (runTrace s l).1.log_factors =
      s.log_factors ++
        ((runTrace s l).2.filter contributes).map
          (fun n => n.funsor.log_prob) := by
  induction l generalizing s with
  | nil => simp [runTrace]
  | cons n rest ih =>
      simp only [runTrace]
      rw [ih, processNode_log_factors]
      by_cases hc : contributes n = true
      · have hcp : contributes (processNode s n).2 = true := by
          rw [contributes_processNode]; exact hc
        rw [List.filter_cons_of_pos hcp, if_pos ((contributes_iff n).mp hc)]
        simp
      · have hcp : ¬ contributes (processNode s n).2 = true := by
          rw [contributes_processNode]; exact hc
        rw [List.filter_cons_of_neg hcp,
          if_neg (fun h => hc ((contributes_iff n).mpr h))]
        simp

/-! ### Shared-scale candidates along a pass -/

/-- A site qualifies for shared-scale adoption when it is reached: it is
scored and satisfies the line 37-38 test against the state after lines
30-35. -/
def qualifies (s : TermBundle) (n : Node) : Prop :=
  scored n ∧ scaleCandidate (preScaleState s n) n

instance (s : TermBundle) (n : Node) : Decidable (qualifies s n) := by
  unfold qualifies; infer_instance

/-- No site of the list qualifies for shared-scale adoption when the pass is
continued from state `s`. -/
def noQualFrom (s : TermBundle) : List Node → Prop
  | [] => True
  | n :: rest => ¬ qualifies s n ∧ noQualFrom (processNode s n).1 rest

def noQualFromDec (s : TermBundle) : (l : List Node) → Decidable (noQualFrom s l)
  | [] => .isTrue trivial
  | n :: rest =>
      haveI : Decidable (noQualFrom (processNode s n).1 rest) :=
        noQualFromDec (processNode s n).1 rest
      by unfold noQualFrom; infer_instance

instance (s : TermBundle) (l : List Node) : Decidable (noQualFrom s l) :=
  noQualFromDec s l

theorem runTrace_scale_noQual (s : TermBundle) (l : List Node)
    (h : noQualFrom s l) : (runTrace s l).1.scale = s.scale := by
  induction l generalizing s with
  | nil => rfl
  | cons n rest ih =>
      obtain ⟨h1, h2⟩ := h
      simp only [runTrace]
      rw [ih (processNode s n).1 h2, processNode_scale]
      split_ifs with hq
      · exact absurd hq h1
      · rfl

/-! ### Projections of `terms_from_trace` -/

theorem terms_from_trace_scale (tr : List Node) :
    (terms_from_trace tr).1.scale = (runTrace initBundle tr).1.scale := rfl

theorem terms_from_trace_log_measures (tr : List Node) :
    (terms_from_trace tr).1.log_measures
      = (runTrace initBundle tr).1.log_measures := rfl

theorem terms_from_trace_measure_vars (tr : List Node) :
    (terms_from_trace tr).1.measure_vars
      = (runTrace initBundle tr).1.measure_vars := rfl

theorem terms_from_trace_plate_vars (tr : List Node) :
    (terms_from_trace tr).1.plate_vars
      = (runTrace initBundle tr).1.plate_vars := rfl

theorem terms_from_trace_log_factors (tr : List Node) :
    (terms_from_trace tr).1.log_factors
      = (runTrace initBundle tr).1.log_factors := rfl

theorem terms_from_trace_nodes (tr : List Node) :
    (terms_from_trace tr).2 = (runTrace initBundle tr).2 := rfl

theorem terms_from_trace_plate_to_step (tr : List Node) :
    (terms_from_trace tr).1.plate_to_step
      = finalizePmap (runTrace initBundle tr).1.plate_to_step
          (runTrace initBundle tr).1.plate_vars := rfl

/-! ### Concrete example traces -/

/-- A constant factor over a given input set (values play no role in the
set-level claims). -/
def cF (s : List String) (q : ℚ) : Factor := { inputs := s, val := fun _ => q }

def baseFunsor : FunsorDict :=
  { log_measure := none, value := cF [] 0, log_prob := cF [] 0, scale := 1 }

def baseNode (nm : String) : Node :=
  { name := nm, type_ := "sample", fn_subsample := false, do_not_score := false,
    is_observed := false, cond_indep_stack := [], replay_active := false,
    replay_skipped := false, value_step := ∅, funsor := baseFunsor }

/-- A latent enumerated site named `a`: carries a log-measure, establishing
the measure variable `a`. -/
def exC1a : Node :=
  { baseNode "a" with
    funsor :=
      { baseFunsor with
        log_measure := some (cF ["a"] 0),
        value := cF ["a"] 0,
        log_prob := cF ["a"] 0 } }

/-- A replay-active observed site depending on `a` with scale 2: a
shared-scale candidate. -/
def exC1b : Node :=
  { baseNode "b" with
    is_observed := true,
    replay_active := true,
    funsor :=
      { baseFunsor with
        log_prob := cF ["a"] 0,
        scale := 2 } }

/-- A second shared-scale candidate, with scale 3. -/
def exC1c : Node :=
  { baseNode "c" with
    is_observed := true,
    replay_active := true,
    funsor :=
      { baseFunsor with
        log_prob := cF ["a"] 0,
        scale := 3 } }

def exC1 : List Node := [exC1a, exC1b, exC1c]

/-- A site with a nontrivial scale and a nonzero log-probability, used to
observe the in-place log_prob update. -/
def exC6 : Node :=
  { baseNode "s6" with
    funsor :=
      { baseFunsor with
        log_prob := cF [] 5,
        scale := 2 } }

/-- A `markov_chain` marker record. -/
def exMarkov : Node :=
  { baseNode "t" with
    type_ := "markov_chain",
    value_step := {("p", "q")} }

/-- A site inside a vectorized plate `p`. -/
def exC9 : Node :=
  { baseNode "s9" with
    cond_indep_stack := [{ name := "p", vectorized := true }] }

/-! ### Claims about the term extractor -/

/-- C1 (counterexample): the trace `exC1` contains two sites (`b`, then `c`)
that both qualify as shared-scale candidates when reached, yet
`terms_from_trace` does not fail — the embedding is total precisely because
lines 36-42 of the source raise nothing — and returns a bundle whose shared
scale is the scale of the last candidate (3, from `c`), silently discarding
the first candidate's scale (2, from `b`). -/
theorem C1_counterexample :
    qualifies (runTrace initBundle [exC1a]).1 exC1b ∧
    qualifies (runTrace initBundle [exC1a, exC1b]).1 exC1c ∧
    (terms_from_trace exC1).1.scale = 3 ∧ exC1b.funsor.scale = 2 := by
  exact ⟨by decide, by decide, by decide, by decide⟩

/-- C1 (amended): with two or more qualifying shared-scale candidate sites,
`terms_from_trace` raises no error; it returns a bundle whose `scale` is the
scale of the last qualifying site — line 40 silently overwrites. -/
theorem C1_amended_last_candidate_wins (pre post : List Node) (n : Node)
    (h1 : qualifies (runTrace initBundle pre).1 n)
    (h2 : noQualFrom (processNode (runTrace initBundle pre).1 n).1 post) :
    (terms_from_trace (pre ++ n :: post)).1.scale = n.funsor.scale := by
  obtain ⟨ha, hb⟩ := h1
  rw [terms_from_trace_scale, runTrace_append]
  simp only [runTrace]
  rw [runTrace_scale_noQual _ _ h2, processNode_scale, if_pos ⟨ha, hb⟩]

theorem C1_amended_witness :
    qualifies (runTrace initBundle [exC1a, exC1b]).1 exC1c ∧
    (terms_from_trace ([exC1a, exC1b] ++ exC1c :: [])).1.scale
      = exC1c.funsor.scale :=
  ⟨by decide,
   C1_amended_last_candidate_wins [exC1a, exC1b] [] exC1c (by decide) (by decide)⟩

/-- C6 (counterexample): `terms_from_trace` does not leave the trace
unchanged.  For the one-site trace `[exC6]` (scale 2, constant
log-probability 5), the log_prob stored in the trace evaluates to 10 after
the call, but to 5 before it: line 42 writes `log_prob * scale` back into
the node. -/
theorem C6_counterexample :
    ((terms_from_trace [exC6]).2.map
      (fun n => n.funsor.log_prob.val (fun _ => 0))) = [10] ∧
    ([exC6].map (fun n => n.funsor.log_prob.val (fun _ => 0))) = [5] := by
  constructor
  · show [(5 : ℚ) * 2] = [10]
    norm_num
  · decide

/-- C6 (amended): the only mutation `terms_from_trace` performs on the trace
is the line 42 write-back: node `i` comes back unchanged except that, when it
is scored and not the shared-scale candidate at its position, its
`funsor.log_prob` is multiplied by its own scale; `nodeScaled` changes no
field other than `funsor.log_prob`. -/
theorem C6_amended_only_log_prob_scaled (tr : List Node) (i : ℕ) (n : Node)
    (h : tr[i]? = some n) :
    ((terms_from_trace tr).2[i]? =
      some (if scored n ∧ ¬ scaleCandidate
              (preScaleState (runTrace initBundle (tr.take i)).1 n) n
            then nodeScaled n else n)) ∧
    (∀ m : Node, (nodeScaled m).name = m.name ∧ (nodeScaled m).type_ = m.type_ ∧
      (nodeScaled m).fn_subsample = m.fn_subsample ∧
      (nodeScaled m).do_not_score = m.do_not_score ∧
      (nodeScaled m).is_observed = m.is_observed ∧
      (nodeScaled m).cond_indep_stack = m.cond_indep_stack ∧
      (nodeScaled m).replay_active = m.replay_active ∧
      (nodeScaled m).replay_skipped = m.replay_skipped ∧
      (nodeScaled m).value_step = m.value_step ∧
      (nodeScaled m).funsor.log_measure = m.funsor.log_measure ∧
      (nodeScaled m).funsor.value = m.funsor.value ∧
      (nodeScaled m).funsor.scale = m.funsor.scale) := by
  constructor
  · rw [terms_from_trace_nodes, runTrace_getElem? initBundle tr i n h,
      processNode_snd]
  · intro m
    exact ⟨rfl, rfl, rfl, rfl, rfl, rfl, rfl, rfl, rfl, rfl, rfl, rfl⟩

theorem C6_amended_witness :
    ([exC6][0]? = some exC6) ∧
    ((terms_from_trace [exC6]).2[0]? =
      some (if scored exC6 ∧ ¬ scaleCandidate
              (preScaleState (runTrace initBundle ([exC6].take 0)).1 exC6) exC6
            then nodeScaled exC6 else exC6)) :=
  ⟨rfl, (C6_amended_only_log_prob_scaled [exC6] 0 exC6 rfl).1⟩

/-- C7: for every scored sample site carrying a log-measure, the extractor
appends that log-measure and unions into `measure_vars` exactly (inputs of
the site's enumerated value ∪ the site's name) minus the plate variables
accumulated up to and including that site; `measure_vars` is the union of
these per-site contributions over the whole trace. -/
theorem C7_measure_extraction (tr : List Node) :
    (terms_from_trace tr).1.log_measures = specLogMeasures tr ∧
    (terms_from_trace tr).1.measure_vars = specMeasureVars ∅ tr := by
  constructor
  · rw [terms_from_trace_log_measures, runTrace_log_measures]
    rfl
  · rw [terms_from_trace_measure_vars, runTrace_measure_vars]
    show ∅ ∪ specMeasureVars initBundle.plate_vars tr = _
    rw [Finset.empty_union]
    rfl

/-- C8: the extracted `log_factors` are exactly the (post write-back)
log-probabilities of the scored sites that are observed or not
replay-skipped, in trace order; `markov_chain` records contribute neither a
factor nor a measure. -/
theorem C8_factor_condition (tr : List Node) :
    ((terms_from_trace tr).1.log_factors =
      ((terms_from_trace tr).2.filter contributes).map
        (fun n => n.funsor.log_prob)) ∧
    (∀ (s : TermBundle) (n : Node), n.type_ = "markov_chain" →
      (processNode s n).1.log_factors = s.log_factors ∧
      (processNode s n).1.log_measures = s.log_measures) := by
  constructor
  · rw [terms_from_trace_log_factors, runTrace_log_factors,
      terms_from_trace_nodes]
    rfl
  · intro s n h
    constructor
    · rw [processNode_log_factors]
      simp [scored_not_markov n h]
    · rw [processNode_log_measures]
      simp [scored_not_markov n h]

theorem C8_witness :
    ((terms_from_trace exC1).1.log_factors =
      ((terms_from_trace exC1).2.filter contributes).map
        (fun n => n.funsor.log_prob)) ∧
    ((processNode initBundle exMarkov).1.log_factors = initBundle.log_factors ∧
     (processNode initBundle exMarkov).1.log_measures
       = initBundle.log_measures) :=
  ⟨(C8_factor_condition exC1).1,
   (C8_factor_condition exC1).2 initBundle exMarkov rfl⟩

theorem finalizePmap_get (m : Pmap) (pv : Finset String) (p : String) :
    (finalizePmap m pv).get p = m.get p := rfl

theorem finalizePmap_keys (m : Pmap) (pv : Finset String) :
    (finalizePmap m pv).keys = m.keys ∪ pv := by
  unfold finalizePmap Pmap.keys
  rw [Finset.union_assoc]

/-- C9: every plate in `plate_vars` gets an entry in `plate_to_step`; the
entry is the descriptor registered by the last `markov_chain` record of that
name when one exists (line 47's `get` preserves it), and the empty descriptor
otherwise. -/
theorem C9_plate_entries (tr : List Node) (p : String)
    (hp : p ∈ (terms_from_trace tr).1.plate_vars) :
    p ∈ (terms_from_trace tr).1.plate_to_step.keys ∧
    (terms_from_trace tr).1.plate_to_step.get p
      = (lastRegistered tr p).getD ∅ := by
  rw [terms_from_trace_plate_vars] at hp
  constructor
  · rw [terms_from_trace_plate_to_step, finalizePmap_keys]
    exact Finset.mem_union_right _ hp
  · rw [terms_from_trace_plate_to_step, finalizePmap_get,
      runTrace_plate_to_step]
    unfold Pmap.get lastRegistered
    rw [foldl_registerFold_entries]
    rfl

theorem C9_witness :
    ("p" ∈ (terms_from_trace [exC9]).1.plate_vars) ∧
    ("p" ∈ (terms_from_trace [exC9]).1.plate_to_step.keys ∧
     (terms_from_trace [exC9]).1.plate_to_step.get "p"
       = (lastRegistered [exC9] "p").getD ∅) :=
  ⟨by decide, C9_plate_entries [exC9] "p" (by decide)⟩

/-- C10: per scored site, shared-scale adoption and eager scale application
are mutually exclusive: a qualifying site is written back unchanged (its
factor is not multiplied by its scale) and its scale becomes the bundle
scale, while a non-qualifying site has its scale multiplied into its factor
and leaves the bundle scale untouched. -/
theorem C10_scale_exclusive (pre post : List Node) (n : Node)
    (hs : scored n) :
    (scaleCandidate (preScaleState (runTrace initBundle pre).1 n) n →
      (terms_from_trace (pre ++ n :: post)).2[pre.length]? = some n ∧
      (processNode (runTrace initBundle pre).1 n).1.scale
        = n.funsor.scale) ∧
    (¬ scaleCandidate (preScaleState (runTrace initBundle pre).1 n) n →
      (terms_from_trace (pre ++ n :: post)).2[pre.length]? = some (nodeScaled n) ∧
      (processNode (runTrace initBundle pre).1 n).1.scale
        = (runTrace initBundle pre).1.scale) := by
  have hidx : (pre ++ n :: post)[pre.length]? = some n := by
    rw [List.getElem?_append_right (le_refl pre.length)]
    simp
  have htake : (pre ++ n :: post).take pre.length = pre := by
    simp
  have hnode := runTrace_getElem? initBundle (pre ++ n :: post) pre.length n hidx
  rw [htake] at hnode
  rw [terms_from_trace_nodes]
  constructor
  · intro hc
    refine ⟨?_, ?_⟩
    · rw [hnode, processNode_snd, if_neg (fun hcon => hcon.2 hc)]
    · rw [processNode_scale, if_pos ⟨hs, hc⟩]
  · intro hc
    refine ⟨?_, ?_⟩
    · rw [hnode, processNode_snd, if_pos ⟨hs, hc⟩]
    · rw [processNode_scale, if_neg (fun hcon => hc hcon.2)]

theorem C10_witness :
    scored exC1b ∧
    scaleCandidate (preScaleState (runTrace initBundle [exC1a]).1 exC1b) exC1b ∧
    ((terms_from_trace ([exC1a] ++ exC1b :: [exC1c])).2[[exC1a].length]?
        = some exC1b ∧
     (processNode (runTrace initBundle [exC1a]).1 exC1b).1.scale
        = exC1b.funsor.scale) :=
  ⟨by decide, by decide,
   (C10_scale_exclusive [exC1a] [exC1c] exC1b (by decide)).1 (by decide)⟩

/-! ### Semantic evaluation context

The module's semiring is (logaddexp, add) over real log-space values.
Addition is exact over `ℚ`; log-sum-exp and pointwise exponentiation are
transcendental and are abstracted into the context: `lse` is the binary
log-sum-exp, `z` its unit (negative infinity in the reals), `exp` the
exponential used by `Integrate`.  Every theorem below is proved for every
context, hence in particular for the real operations. -/

structure SemCtx where
  dom : String → ℕ
  lse : ℚ → ℚ → ℚ
  z : ℚ
  exp : ℚ → ℚ

/-- Additive (plate) reduction of one named dimension. -/
def sumVarAdd (C : SemCtx) (x : String) (g : Assign → ℚ) : Assign → ℚ :=
  fun σ => (Finset.range (C.dom x)).sum (fun i => g (Function.update σ x i))

/-- Log-sum-exp (measure) reduction of one named dimension. -/
def lseVar (C : SemCtx) (x : String) (g : Assign → ℚ) : Assign → ℚ :=
  fun σ =>
    ((List.range (C.dom x)).map (fun i => g (Function.update σ x i))).foldr
      C.lse C.z

def reduceAddList (C : SemCtx) (l : List String) (g : Assign → ℚ) :
    Assign → ℚ :=
  l.foldr (sumVarAdd C) g

def reduceLseList (C : SemCtx) (l : List String) (g : Assign → ℚ) :
    Assign → ℚ :=
  l.foldr (lseVar C) g

/-- Additive reduction of a factor over a variable set (`reduce` with the
semiring product `add`).  Only variables actually among the factor's inputs
are reduced, as for a funsor `reduce`. -/
def Factor.reduceAdd (F : Factor) (C : SemCtx) (S : Finset String) : Factor :=
  { inputs := F.inputs.filter (fun x => !(decide (x ∈ S))),
    val := reduceAddList C (F.inputs.filter (fun x => decide (x ∈ S))) F.val }

/-- Log-sum-exp reduction of a factor over a variable set (`reduce` with the
semiring sum `logaddexp`). -/
def Factor.reduceLse (F : Factor) (C : SemCtx) (S : Finset String) : Factor :=
  { inputs := F.inputs.filter (fun x => !(decide (x ∈ S))),
    val := reduceLseList C (F.inputs.filter (fun x => decide (x ∈ S))) F.val }

/-- Ordered union of funsor input lists: the left operand's inputs followed
by the fresh inputs of the right operand, as for funsor broadcasting. -/
def unL (a b : List String) : List String :=
  a ++ b.filter (fun x => !(decide (x ∈ a)))

/-- The combined factor of a list of log-space factors: the semiring product
is pointwise addition of log values. -/
def logProd (fs : List Factor) : Factor :=
  { inputs := fs.foldr (fun f a => unL f.inputs a) [],
    val := fun σ => (fs.map (fun f => f.val σ)).sum }

/-- Pointwise negation (`-f`, line 86/157). -/
def negF (f : Factor) : Factor :=
  { inputs := f.inputs, val := fun σ => -(f.val σ) }

/-- Multiplication by the scalar shared scale (`scale * f`, line 78/150). -/
def scaleMulF (c : ℚ) (f : Factor) : Factor :=
  { inputs := f.inputs, val := fun σ => c * f.val σ }

/-- Pointwise sum of two factors (`elbo += elbo_term`, line 118/172). -/
def addF (a b : Factor) : Factor :=
  { inputs := unL a.inputs b.inputs, val := fun σ => a.val σ + b.val σ }

/-- The zero funsor `to_funsor(0, output=funsor.Real)` (line 111/161). -/
def zeroF : Factor := { inputs := [], val := fun _ => 0 }

/-- Reduction over all remaining inputs (`.reduce(funsor.ops.add)`,
line 118). -/
def Factor.reduceAddAll (F : Factor) (C : SemCtx) : Factor :=
  F.reduceAdd C F.inputs.toFinset

/-- The evaluation point used to read off the final scalar
(`to_data(...)`). -/
def defaultAssign : Assign := fun _ => 0

/-! ### Spec-modelled funsor library routines

`funsor.sum_product`, `funsor.Integrate` and `funsor.adjoint` belong to the
external funsor library; the repository sources only call them.  They are
modelled from the specification (sections 4.2-4.4). -/

/-- Modelled from the spec (§4.2, §4.4): `funsor.sum_product.sum_product`
with sum operation log-sum-exp and product operation add.  Variables in
`eliminate` are reduced — variables that are plates by product-reduction
(plain addition of log values along the axis), the others by log-sum-exp —
while plates outside `eliminate` remain batch dimensions. -/
def sum_product (C : SemCtx) (factors : List Factor)
    (plates eliminate : Finset String) : Factor :=
  ((logProd factors).reduceLse C (eliminate \ plates)).reduceAdd C
    (eliminate ∩ plates)

/-- Modelled from the spec (§4.2): plate-parallel elimination
(`funsor.sum_product.partial_sum_product`).  The splitting of the residual
into one factor per connected component is abstracted into a single combined
residual factor (the callers only sum per-cost contributions, which is
insensitive to that grouping under this semantics); an empty factor graph
has no residual. -/
def partial_sum_product (C : SemCtx) (factors : List Factor)
    (plates eliminate : Finset String) : List Factor :=
  match factors with
  | [] => []
  | _ => [sum_product C factors plates eliminate]

/-- The registered dictionary keys, in insertion order and without
duplicates, that carry a non-empty step descriptor — the sequential plates,
in the order an iteration over the dict yields them. -/
def markovSeqList (m : Pmap) : List String :=
  (m.entries.map Prod.fst).dedup.filter (fun p => decide (m.get p ≠ ∅))

/-- The plates carrying a non-empty step descriptor (`markov_dims`,
lines 76-77 and 89). -/
def markovDims (m : Pmap) : Finset String :=
  (markovSeqList m).toFinset

/-- Modelled from the spec (§4.2): the previous-state partner of a
current-state variable under a step descriptor (itself for variables the
descriptor does not mention). -/
def currToPrev (st : Step) (x : String) : String :=
  let cands := (st.filter (fun pr => pr.2 = x)).image Prod.fst
  if h : cands.Nonempty then cands.min' h else x

/-- Modelled from the spec (§4.2): rename every current-state variable of a
step descriptor to its previous-state partner, to pass a message from step t
to step t+1. -/
def stepRename (st : Step) (F : Factor) : Factor :=
  { inputs := F.inputs.map (currToPrev st),
    val := fun σ => F.val (fun x => σ (currToPrev st x)) }

/-- Modelled from the spec (§4.2): the slice of a factor at step `t` of a
sequential plate `p`. -/
def seqSlice (p : String) (t : ℕ) (G : Factor) : Factor :=
  { inputs := G.inputs.erase p, val := fun σ => G.val (Function.update σ p t) }

/-- Modelled from the spec (§4.2): eliminate one sequential plate by a
linear-chain forward scan: the factors mentioning the plate are combined; at
every step the incoming message is renamed (current to previous state),
combined with the step's slice, and the previous-state variables are
log-sum-exp-reduced away. -/
def eliminateSeqPlate (C : SemCtx) (p : String) (st : Step)
    (fs : List Factor) : List Factor :=
  let chain := fs.filter (fun f => decide (p ∈ f.inputs))
  let rest := fs.filter (fun f => !(decide (p ∈ f.inputs)))
  let G := logProd chain
  let prevs : Finset String := st.image Prod.fst
  let msg := (List.range (C.dom p)).foldl
      (fun m t => (logProd [stepRename st m, seqSlice p t G]).reduceLse C prevs)
      zeroF
  rest ++ [msg]

/-- Modelled from the spec (§4.2):
`funsor.sum_product.modified_partial_sum_product` — identical contract to
plate-parallel elimination, except that every plate with a non-empty step
descriptor is eliminated sequentially by a linear-chain scan, after which the
ordinary plate-parallel elimination handles the rest. -/
def modified_partial_sum_product (C : SemCtx) (factors : List Factor)
    (plate_to_step : Pmap) (eliminate : Finset String) : List Factor :=
  let factors2 := (markovSeqList plate_to_step).foldl
      (fun fs p => eliminateSeqPlate C p (plate_to_step.get p) fs) factors
  partial_sum_product C factors2
    (plate_to_step.keys \ markovDims plate_to_step)
    (eliminate \ markovDims plate_to_step)

/-- Modelled from the spec (§4.4): `funsor.Integrate(log_measure, integrand,
reduced_vars)` — sum-reduce `exp(log_measure) * integrand` over the reduced
variables, with the context's abstract exponential. -/
def Integrate (C : SemCtx) (lp f : Factor) (S : Finset String) : Factor :=
  Factor.reduceAdd
    { inputs := unL lp.inputs f.inputs,
      val := fun σ => C.exp (lp.val σ) * f.val σ }
    C S

/-! ### The two loss pipelines

Both `differentiable_loss` bodies are embedded from the point where the two
traces have been recorded (lines 59-60 and 133-134 run the model and guide
under handlers — the external execution engine).  The handlers' lazy
interpretation, optimizer and memoization (lines 67, 106-107, 120-122 and
141, 174-176) only defer and share numeric work; the embedding computes the
same values eagerly. -/

/-- Lines 69-74 / 143-148: model log-factors meeting the measure variables
are contracted, the others are not. -/
def contractedFactors (mt : TermBundle) : List Factor :=
  mt.log_factors.filter
    (fun f => decide (mt.measure_vars ∩ f.inputs.toFinset).Nonempty)

def uncontractedFactors (mt : TermBundle) : List Factor :=
  mt.log_factors.filter
    (fun f => !(decide (mt.measure_vars ∩ f.inputs.toFinset).Nonempty))

/-- Line 153: the eliminate set of the plate-parallel contraction is the
model's measure variables only. -/
def enumEliminate (mt : TermBundle) : Finset String := mt.measure_vars

/-- Lines 150-154. -/
def enumContractedCosts (C : SemCtx) (mt : TermBundle) : List Factor :=
  (partial_sum_product C (mt.log_measures ++ contractedFactors mt)
    mt.plate_vars (enumEliminate mt)).map (scaleMulF mt.scale)

/-- Lines 156-157: model costs then negated guide factors. -/
def enumCostsList (C : SemCtx) (gt mt : TermBundle) : List Factor :=
  enumContractedCosts C mt ++ uncontractedFactors mt ++
    gt.log_factors.map negF

/-- Lines 162-172: the per-cost elbo contribution of the plate-parallel
path. -/
def enumElboTerm (C : SemCtx) (gt : TermBundle) (plate_vars : Finset String)
    (cost : Factor) : Factor :=
  let log_prob := sum_product C gt.log_measures plate_vars
    ((plate_vars ∪ gt.measure_vars) \ cost.inputs.toFinset)
  (Integrate C log_prob cost
    (gt.measure_vars ∩ cost.inputs.toFinset)).reduceAdd C
    (plate_vars ∩ cost.inputs.toFinset)

/-- Lines 159-172: the elbo accumulation `elbo = to_funsor(0); for cost in
costs: elbo += elbo_term`, with `plate_vars` the union of guide and model
plate variables (line 160). -/
def enumElbo (C : SemCtx) (gt mt : TermBundle) : Factor :=
  (enumCostsList C gt mt).foldl
    (fun e c => addF e (enumElboTerm C gt (gt.plate_vars ∪ mt.plate_vars) c))
    zeroF

/-- `TraceEnum_ELBO.differentiable_loss` (lines 128-176), from the recorded
traces: the negated elbo, materialized as a scalar. -/
def TraceEnum_differentiable_loss (C : SemCtx)
    (guide_tr model_tr : List Node) : ℚ :=
  -((enumElbo C (terms_from_trace guide_tr).1
      (terms_from_trace model_tr).1).val defaultAssign)

/-- Lines 76-83: the Markov path's model contraction eliminates the measure
variables together with every plate whose step descriptor is non-empty. -/
def markovModelEliminate (mt : TermBundle) : Finset String :=
  mt.measure_vars ∪ markovDims mt.plate_to_step

def markovContractedCosts (C : SemCtx) (mt : TermBundle) : List Factor :=
  (modified_partial_sum_product C (mt.log_measures ++ contractedFactors mt)
    mt.plate_to_step (markovModelEliminate mt)).map (scaleMulF mt.scale)

/-- Lines 85-86. -/
def markovCostsList (C : SemCtx) (gt mt : TermBundle) : List Factor :=
  markovContractedCosts C mt ++ uncontractedFactors mt ++
    gt.log_factors.map negF

/-- Lines 92-96: a zero probe with exactly the cost's inputs. -/
def probeF (cost : Factor) : Factor :=
  { inputs := cost.inputs, val := fun _ => 0 }

/-- Lines 92-97: probes for the model costs, then the guide's
log-measures. -/
def markovTargets (C : SemCtx) (gt mt : TermBundle) : List Factor :=
  (markovContractedCosts C mt ++ uncontractedFactors mt).map probeF ++
    gt.log_measures

/-- Line 103: the guide-side eliminate set of the partition function. -/
def markovGuideEliminate (gt : TermBundle) : Finset String :=
  gt.measure_vars ∪ markovDims gt.plate_to_step

/-- Lines 98-104: the guide-side partition function `logzq` — the sum of the
residual factors of the Markov elimination of the targets, eliminating the
guide's measure variables and sequential plates.  It is consumed only by the
adjoint pass. -/
def markovLogZq (C : SemCtx) (gt mt : TermBundle) : Factor :=
  (modified_partial_sum_product C (markovTargets C gt mt) gt.plate_to_step
    (markovGuideEliminate gt)).foldl addF zeroF

/-- Modelled from the spec (§4.3): the adjoint pass (`funsor.adjoint`,
lines 98-108; the funsor library is not among the sources) recovers, for
each target, the guide's marginal over exactly that target's inputs — the
guide's log-measures with all other guide variables eliminated by
sum-product, plates by product-reduction and measure variables by
log-sum-exp. -/
def adjointMarginal (C : SemCtx) (gt : TermBundle) (t : Factor) : Factor :=
  { inputs := t.inputs,
    val := (sum_product C gt.log_measures gt.plate_to_step.keys
      ((gt.plate_to_step.keys ∪ gt.measure_vars) \ t.inputs.toFinset)).val }

/-- Line 108: one recovered marginal per target. -/
def markovLogQs (C : SemCtx) (gt mt : TermBundle) : List Factor :=
  (markovTargets C gt mt).map (adjointMarginal C gt)

/-- Line 114: the marginal whose inputs (as a name-to-domain mapping;
domains are global here) equal the cost's inputs — the first such, since
`next` takes the first element of the generator; `none` when no marginal
matches, in which case `next` raises StopIteration. -/
def lookupLogQ (log_qs : List Factor) (cost : Factor) : Option Factor :=
  log_qs.find? (fun q => decide (q.inputs.toFinset = cost.inputs.toFinset))

/-- Lines 116-118: the per-cost elbo contribution of the Markov path. -/
def markovElboTerm (C : SemCtx) (gt : TermBundle) (log_prob cost : Factor) :
    Factor :=
  (Integrate C log_prob cost
    (cost.inputs.toFinset \ gt.plate_to_step.keys)).reduceAddAll C

/-- Lines 110-118: the elbo accumulation of the Markov path; `none` models
the uncaught StopIteration of line 114 when some cost has no matching
marginal. -/
def markovElbo (C : SemCtx) (gt mt : TermBundle) : Option Factor :=
  (markovCostsList C gt mt).foldlM
    (fun e cost => (lookupLogQ (markovLogQs C gt mt) cost).map
      (fun lp => addF e (markovElboTerm C gt lp cost))) zeroF

/-- `TraceMarkovEnum_ELBO.differentiable_loss` (lines 54-122), from the
recorded traces: the negated elbo when every per-cost marginal lookup
succeeds, no value otherwise. -/
def TraceMarkovEnum_differentiable_loss (C : SemCtx)
    (guide_tr model_tr : List Node) : Option ℚ :=
  (markovElbo C (terms_from_trace guide_tr).1
      (terms_from_trace model_tr).1).map
    (fun elbo => -(elbo.val defaultAssign))

/-! ### Claims about the loss pipelines -/

theorem foldl_addF_val (g : Factor → Factor) (l : List Factor) (e : Factor)
    (σ : Assign) :
    (l.foldl (fun a c => addF a (g c)) e).val σ =
      e.val σ + (l.map (fun c => (g c).val σ)).sum := by
  induction l generalizing e with
  | nil => simp
  | cons c rest ih =>
      simp only [List.foldl_cons, List.map_cons, List.sum_cons]
      rw [ih]
      simp only [addF]
      ring

/-- C2: in `TraceEnum_ELBO.differentiable_loss`, every cost `f` uses the
marginal obtained by `sum_product` over the guide's log-measures with
eliminate = (guide plate variables ∪ model plate variables ∪ guide measure
variables) minus `f`'s inputs; its expectation is `Integrate(log_prob, f, S)`
with `S` the guide measure variables ∩ `f`'s inputs, add-reduced over
(plate variables ∩ `f`'s inputs); the loss is the negated sum of these
contributions over all costs. -/
theorem C2_enum_loss_structure (C : SemCtx) (guide_tr model_tr : List Node) :
    TraceEnum_differentiable_loss C guide_tr model_tr =
      -(((enumCostsList C (terms_from_trace guide_tr).1
            (terms_from_trace model_tr).1).map (fun f =>
          ((Integrate C
              (sum_product C (terms_from_trace guide_tr).1.log_measures
                ((terms_from_trace guide_tr).1.plate_vars
                  ∪ (terms_from_trace model_tr).1.plate_vars)
                ((((terms_from_trace guide_tr).1.plate_vars
                    ∪ (terms_from_trace model_tr).1.plate_vars)
                  ∪ (terms_from_trace guide_tr).1.measure_vars)
                    \ f.inputs.toFinset))
              f
              ((terms_from_trace guide_tr).1.measure_vars
                ∩ f.inputs.toFinset)).reduceAdd
            C
            (((terms_from_trace guide_tr).1.plate_vars
              ∪ (terms_from_trace model_tr).1.plate_vars)
                ∩ f.inputs.toFinset)).val
          defaultAssign)).sum) := by
  show -((enumElbo C (terms_from_trace guide_tr).1
      (terms_from_trace model_tr).1).val defaultAssign) = _
  rw [enumElbo, foldl_addF_val]
  show -((0 : ℚ) + _) = _
  rw [zero_add]
  rfl

/-! ### Concrete loss-pipeline examples -/

/-- A concrete evaluation context for the example traces: singleton domains,
max as log-sum-exp with unit 0, identity exponential. -/
def Cex : SemCtx :=
  { dom := fun _ => 1, lse := fun a b => max a b, z := 0, exp := fun q => q }

/-- Guide trace with one enumerated latent site `x`. -/
def exGx : Node :=
  { baseNode "x" with
    funsor :=
      { baseFunsor with
        log_measure := some (cF ["x"] 0),
        value := cF ["x"] 0,
        log_prob := cF ["x"] 0 } }

/-- Model-side replayed copy of `x`: no measure, density skipped. -/
def exMx : Node :=
  { baseNode "x" with
    replay_skipped := true,
    funsor := { baseFunsor with log_prob := cF ["x"] 0 } }

/-- An observed model site depending on `x`. -/
def exMy1 : Node :=
  { baseNode "y1" with
    is_observed := true,
    funsor := { baseFunsor with log_prob := cF ["x"] 1 } }

/-- A second observed model site with the same inputs as the first. -/
def exMy2 : Node :=
  { baseNode "y2" with
    is_observed := true,
    funsor := { baseFunsor with log_prob := cF ["x"] 2 } }

/-- An observed guide site over a fresh variable `y`: its negated density
becomes a cost whose inputs match no probe and no guide log-measure. -/
def exGy : Node :=
  { baseNode "y" with
    is_observed := true,
    funsor := { baseFunsor with log_prob := cF ["y"] 1 } }

def exGuideTr : List Node := [exGx]

def exModelTr : List Node := [exMx, exMy1, exMy2]

def exGuideTrBad : List Node := [exGx, exGy]

def exModelTrBad : List Node := [exMx, exMy1]

/-- A latent site whose enumerated value mentions the name `p` before any
plate of that name exists: `p` lands in `measure_vars`. -/
def exC4a : Node :=
  { baseNode "a" with
    funsor :=
      { baseFunsor with
        log_measure := some (cF ["p"] 0),
        value := cF ["p"] 0,
        log_prob := cF ["p"] 0 } }

/-- A later site inside a vectorized plate named `p` (with no step
descriptor): `p` becomes an ordinary plate. -/
def exC4b : Node :=
  { baseNode "b" with
    is_observed := true,
    cond_indep_stack := [{ name := "p", vectorized := true }],
    funsor := { baseFunsor with log_prob := cF ["p"] 0 } }

def exC4Tr : List Node := [exC4a, exC4b]

/-! ### Claims about eliminate sets and marginal lookup -/

/-- C3 (counterexample): for the traces `exGuideTr`/`exModelTr` — two model
costs with the same inputs `{x}` — three recovered marginals match each such
cost's inputs, not exactly one, and the loss computation still succeeds,
silently using the first match. -/
theorem C3_counterexample :
    ((markovLogQs Cex (terms_from_trace exGuideTr).1
        (terms_from_trace exModelTr).1).countP
      (fun q => decide (q.inputs.toFinset = ({"x"} : Finset String)))) = 3 ∧
    (∀ c ∈ markovCostsList Cex (terms_from_trace exGuideTr).1
        (terms_from_trace exModelTr).1,
      c.inputs.toFinset = ({"x"} : Finset String)) ∧
    (markovCostsList Cex (terms_from_trace exGuideTr).1
        (terms_from_trace exModelTr).1).length = 3 ∧
    (TraceMarkovEnum_differentiable_loss Cex exGuideTr exModelTr).isSome
      = true := by
  exact ⟨by decide, by decide, by decide, by decide⟩

theorem find?_pred {p : Factor → Bool} {l : List Factor} {q : Factor}
    (h : l.find? p = some q) : p q = true :=
  List.find?_some h

theorem find?_first {p : Factor → Bool} {l : List Factor} {q : Factor}
    (h : l.find? p = some q) :
    ∃ l1 l2, l = l1 ++ q :: l2 ∧ ∀ r ∈ l1, p r = false := by
  induction l with
  | nil => simp at h
  | cons a rest ih =>
      by_cases ha : p a = true
      · rw [List.find?_cons_of_pos rest ha] at h
        cases h
        exact ⟨[], rest, rfl, by simp⟩
      · rw [List.find?_cons_of_neg rest ha] at h
        obtain ⟨l1, l2, hl, hfst⟩ := ih h
        refine ⟨a :: l1, l2, by rw [hl]; rfl, ?_⟩
        intro r hr
        rcases List.mem_cons.mp hr with h1 | h2
        · subst h1
          exact Bool.eq_false_iff.mpr (fun hc => ha hc)
        · exact hfst r h2

theorem markovElbo_none_iff (C : SemCtx) (gt mt : TermBundle) :
    markovElbo C gt mt = none ↔
      ∃ cost ∈ markovCostsList C gt mt,
        (lookupLogQ (markovLogQs C gt mt) cost).isNone = true := by
  unfold markovElbo
  generalize markovCostsList C gt mt = l
  generalize zeroF = e
  induction l generalizing e with
  | nil =>
      constructor
      · intro h
        simp at h
      · rintro ⟨c, hc, _⟩
        simp at hc
  | cons c rest ih =>
      rw [List.foldlM_cons]
      cases hc : lookupLogQ (markovLogQs C gt mt) c with
      | none =>
          simp only [hc, Option.map_none']
          constructor
          · intro _
            exact ⟨c, List.mem_cons_self c rest, by rw [hc]; rfl⟩
          · intro _
            rfl
      | some lp =>
          simp only [hc, Option.map_some']
          constructor
          · intro h
            obtain ⟨d, hd, hnone⟩ :=
              (ih (addF e (markovElboTerm C gt lp c))).mp h
            exact ⟨d, List.mem_cons_of_mem c hd, hnone⟩
          · rintro ⟨d, hd, hnone⟩
            rcases List.mem_cons.mp hd with h1 | h2
            · subst h1
              rw [hc] at hnone
              simp at hnone
            · exact (ih (addF e (markovElboTerm C gt lp c))).mpr ⟨d, h2, hnone⟩

/-- C3 (amended): the per-cost marginal is selected by exact input match —
the first recovered marginal whose inputs equal the cost's is used, and a
matching marginal always has exactly the cost's inputs; when no marginal
matches, the whole loss computation fails immediately (no value).  Uniqueness
of the match is not checked: several marginals may match and the first wins
(see the counterexample). -/
theorem C3_amended_first_exact_match (C : SemCtx)
    (guide_tr model_tr : List Node) :
    (∀ cost q,
      lookupLogQ (markovLogQs C (terms_from_trace guide_tr).1
          (terms_from_trace model_tr).1) cost = some q →
        q.inputs.toFinset = cost.inputs.toFinset ∧
        ∃ l1 l2,
          markovLogQs C (terms_from_trace guide_tr).1
              (terms_from_trace model_tr).1 = l1 ++ q :: l2 ∧
          ∀ r ∈ l1, r.inputs.toFinset ≠ cost.inputs.toFinset) ∧
    (TraceMarkovEnum_differentiable_loss C guide_tr model_tr = none ↔
      ∃ cost ∈ markovCostsList C (terms_from_trace guide_tr).1
          (terms_from_trace model_tr).1,
        (lookupLogQ (markovLogQs C (terms_from_trace guide_tr).1
            (terms_from_trace model_tr).1) cost).isNone = true) := by
  constructor
  · intro cost q hq
    refine ⟨?_, ?_⟩
    · have := List.find?_some hq
      exact of_decide_eq_true this
    · obtain ⟨l1, l2, hl, hfst⟩ := find?_first hq
      refine ⟨l1, l2, hl, ?_⟩
      intro r hr
      have := hfst r hr
      exact of_decide_eq_false this
  · show ((markovElbo C _ _).map _ = none) ↔ _
    rw [Option.map_eq_none']
    exact markovElbo_none_iff C _ _

theorem C3_amended_witness :
    TraceMarkovEnum_differentiable_loss Cex exGuideTrBad exModelTrBad
      = none :=
  (C3_amended_first_exact_match Cex exGuideTrBad exModelTrBad).2.mpr
    (by decide)

/-- C4 (counterexample): in the trace `exC4Tr`, the name `p` is an ordinary
plate (it is in `plate_vars` and its step descriptor is the default empty
one) and yet belongs to the eliminate set handed to `partial_sum_product` by
the plate-parallel path, and to the one handed to
`modified_partial_sum_product` by the Markov path — because a site's
enumerated value mentioned `p` before the plate existed, so `p` also entered
`measure_vars`. -/
theorem C4_counterexample :
    "p" ∈ (terms_from_trace exC4Tr).1.plate_vars ∧
    (terms_from_trace exC4Tr).1.plate_to_step.get "p" = ∅ ∧
    "p" ∈ enumEliminate (terms_from_trace exC4Tr).1 ∧
    "p" ∈ markovModelEliminate (terms_from_trace exC4Tr).1 := by
  exact ⟨by decide, by decide, by decide, by decide⟩

/-- C4 (amended): the Markov path eliminates the measure variables together
with exactly the plates whose registered step descriptor is non-empty, the
plate-parallel path eliminates the measure variables only, and a plate with
an empty step descriptor can belong to an eliminate set only by also being a
measure variable (which requires a site's value to mention the plate before
the plate appears, as in the counterexample). -/
theorem C4_amended_eliminate_sets :
    (∀ mt : TermBundle, markovModelEliminate mt =
      mt.measure_vars ∪ mt.plate_to_step.keys.filter
        (fun p => mt.plate_to_step.get p ≠ ∅)) ∧
    (∀ gt : TermBundle, markovGuideEliminate gt =
      gt.measure_vars ∪ gt.plate_to_step.keys.filter
        (fun p => gt.plate_to_step.get p ≠ ∅)) ∧
    (∀ mt : TermBundle, enumEliminate mt = mt.measure_vars) ∧
    (∀ (mt : TermBundle) (p : String),
      mt.plate_to_step.get p = ∅ → p ∈ markovModelEliminate mt →
        p ∈ mt.measure_vars) ∧
    (∀ (mt : TermBundle) (p : String),
      p ∈ enumEliminate mt → p ∈ mt.measure_vars) := by
  have hdims : ∀ (m : Pmap), markovDims m =
      m.keys.filter (fun p => m.get p ≠ ∅) := by
    intro m
    ext p
    simp only [markovDims, markovSeqList, List.mem_toFinset, List.mem_filter,
      List.mem_dedup, Finset.mem_filter, Pmap.keys, Finset.mem_union,
      decide_eq_true_eq]
    constructor
    · rintro ⟨hin, hne⟩
      exact ⟨Or.inl hin, hne⟩
    · rintro ⟨hin | hextra, hne⟩
      · exact ⟨hin, hne⟩
      · by_cases hent : p ∈ m.entries.map Prod.fst
        · exact ⟨hent, hne⟩
        · exfalso
          apply hne
          unfold Pmap.get
          have hnil : m.entries.filter (fun e => decide (e.1 = p)) = [] := by
            rw [List.filter_eq_nil_iff]
            intro e he
            simp only [decide_eq_true_eq]
            intro hd
            exact hent (List.mem_map.mpr ⟨e, he, hd⟩)
          rw [hnil]
          rfl
  refine ⟨?_, ?_, fun mt => rfl, ?_, fun mt p h => h⟩
  · intro mt
    rw [markovModelEliminate, hdims]
  · intro gt
    rw [markovGuideEliminate, hdims]
  · intro mt p hp hmem
    rcases Finset.mem_union.mp hmem with h | h
    · exact h
    · exfalso
      rw [hdims] at h
      exact (Finset.mem_filter.mp h).2 hp

theorem C4_amended_witness :
    "p" ∈ (terms_from_trace exC4Tr).1.measure_vars :=
  (C4_amended_eliminate_sets).2.2.2.1 (terms_from_trace exC4Tr).1 "p"
    (by decide) (by decide)

/-! ### Reduction algebra

The additive (plate) reductions commute and are invariant under permutation
of the reduced dimension list; these facts drive the equivalence of the two
loss pipelines on models without sequential plates. -/

theorem sumVarAdd_comm (C : SemCtx) (x y : String) (g : Assign → ℚ) :
    sumVarAdd C x (sumVarAdd C y g) = sumVarAdd C y (sumVarAdd C x g) := by
  by_cases hxy : x = y
  · subst hxy; rfl
  · funext σ
    unfold sumVarAdd
    rw [Finset.sum_comm]
    refine Finset.sum_congr rfl (fun j _ => ?_)
    refine Finset.sum_congr rfl (fun i _ => ?_)
    rw [Function.update_comm hxy]

theorem reduceAddList_append (C : SemCtx) (l1 l2 : List String)
    (g : Assign → ℚ) :
    reduceAddList C (l1 ++ l2) g = reduceAddList C l1 (reduceAddList C l2 g) := by
  unfold reduceAddList
  rw [List.foldr_append]

theorem reduceAddList_perm (C : SemCtx) {l1 l2 : List String}
    (h : l1.Perm l2) (g : Assign → ℚ) :
    reduceAddList C l1 g = reduceAddList C l2 g := by
  induction h with
  | nil => rfl
  | cons x h ih => exact congrArg (sumVarAdd C x) ih
  | swap x y l =>
      exact sumVarAdd_comm C y x (reduceAddList C l g)
  | trans h1 h2 ih1 ih2 => rw [ih1, ih2]

/-- Splitting a filter over a disjoint union of variable sets, up to
permutation. -/
theorem filter_union_perm (l : List String) (A B : Finset String)
    (h : ∀ x, x ∈ A → x ∉ B) :
    (l.filter (fun x => decide (x ∈ A ∪ B))).Perm
      (l.filter (fun x => decide (x ∈ A)) ++
        l.filter (fun x => decide (x ∈ B))) := by
  induction l with
  | nil => simp
  | cons a l ih =>
      by_cases ha : a ∈ A
      · have hb : a ∉ B := h a ha
        simp only [List.filter_cons]
        rw [if_pos (by simp [Finset.mem_union, ha]), if_pos (by simp [ha]),
          if_neg (by simp [hb])]
        exact ih.cons a
      · by_cases hb : a ∈ B
        · simp only [List.filter_cons]
          rw [if_pos (by simp [Finset.mem_union, hb]), if_neg (by simp [ha]),
            if_pos (by simp [hb])]
          exact (ih.cons a).trans List.perm_middle.symm
        · simp only [List.filter_cons]
          rw [if_neg (by simp [Finset.mem_union, ha, hb]),
            if_neg (by simp [ha]), if_neg (by simp [hb])]
          exact ih

/-- With every registered step descriptor empty, there are no sequential
plates. -/
theorem markovSeqList_nil (m : Pmap) (h : ∀ p ∈ m.keys, m.get p = ∅) :
    markovSeqList m = [] := by
  unfold markovSeqList
  rw [List.filter_eq_nil_iff]
  intro p hp
  simp only [decide_eq_true_eq, Decidable.not_not]
  exact h p (Finset.mem_union_left _
    (List.mem_toFinset.mpr (List.mem_dedup.mp hp)))

theorem markovDims_empty (m : Pmap) (h : ∀ p ∈ m.keys, m.get p = ∅) :
    markovDims m = ∅ := by
  unfold markovDims
  rw [markovSeqList_nil m h]
  rfl

/-- Modelled contract check: with an all-empty `plate_to_step`, Markov-chain
elimination degenerates to plate-parallel elimination on the same inputs. -/
theorem modified_psp_no_seq (C : SemCtx) (factors : List Factor) (m : Pmap)
    (elim : Finset String) (h : ∀ p ∈ m.keys, m.get p = ∅) :
    modified_partial_sum_product C factors m elim
      = partial_sum_product C factors m.keys elim := by
  unfold modified_partial_sum_product
  rw [markovSeqList_nil m h, markovDims_empty m h]
  simp

/-- On a guide whose measures mention only guide plates and guide measure
variables, the guide marginal computed against the full plate set coincides
with the one computed against the guide's own plates (plates foreign to the
guide are reduced by neither). -/
theorem marginal_val_eq (C : SemCtx) (ms : List Factor)
    (g_pv pv g_mv in_set : Finset String)
    (hsub : g_pv ⊆ pv)
    (H4 : ∀ x ∈ g_mv, x ∉ pv)
    (H5 : ∀ x ∈ (logProd ms).inputs, x ∈ g_pv ∨ x ∈ g_mv) :
    (sum_product C ms pv ((pv ∪ g_mv) \ in_set)).val
      = (sum_product C ms g_pv ((g_pv ∪ g_mv) \ in_set)).val := by
  unfold sum_product Factor.reduceAdd Factor.reduceLse
  have hpt : ∀ x ∈ (logProd ms).inputs,
      (decide (x ∈ ((pv ∪ g_mv) \ in_set) \ pv))
        = (decide (x ∈ ((g_pv ∪ g_mv) \ in_set) \ g_pv)) := by
    intro x hx
    apply decide_eq_decide.mpr
    have h5 := H5 x hx
    have h4 := H4 x
    have hs := @hsub x
    simp only [Finset.mem_sdiff, Finset.mem_union]
    constructor
    · rintro ⟨⟨hpvm, hnin⟩, hnpv⟩
      rcases hpvm with hpv1 | hmv1
      · exact absurd hpv1 hnpv
      · exact ⟨⟨Or.inr hmv1, hnin⟩, fun hg => hnpv (hs hg)⟩
    · rintro ⟨⟨hpvm, hnin⟩, hngpv⟩
      rcases hpvm with hpv1 | hmv1
      · exact absurd hpv1 hngpv
      · exact ⟨⟨Or.inr hmv1, hnin⟩, h4 hmv1⟩
  have hptn : ∀ x ∈ (logProd ms).inputs,
      (!(decide (x ∈ ((pv ∪ g_mv) \ in_set) \ pv)))
        = (!(decide (x ∈ ((g_pv ∪ g_mv) \ in_set) \ g_pv))) := by
    intro x hx
    rw [hpt x hx]
  have hL : (logProd ms).inputs.filter
        (fun x => decide (x ∈ ((pv ∪ g_mv) \ in_set) \ pv))
      = (logProd ms).inputs.filter
        (fun x => decide (x ∈ ((g_pv ∪ g_mv) \ in_set) \ g_pv)) :=
    List.filter_congr hpt
  have hbase : (logProd ms).inputs.filter
        (fun x => !(decide (x ∈ ((pv ∪ g_mv) \ in_set) \ pv)))
      = (logProd ms).inputs.filter
        (fun x => !(decide (x ∈ ((g_pv ∪ g_mv) \ in_set) \ g_pv))) :=
    List.filter_congr hptn
  have hA : ((logProd ms).inputs.filter
        (fun x => !(decide (x ∈ ((pv ∪ g_mv) \ in_set) \ pv)))).filter
          (fun x => decide (x ∈ ((pv ∪ g_mv) \ in_set) ∩ pv))
      = ((logProd ms).inputs.filter
        (fun x => !(decide (x ∈ ((g_pv ∪ g_mv) \ in_set) \ g_pv)))).filter
          (fun x => decide (x ∈ ((g_pv ∪ g_mv) \ in_set) ∩ g_pv)) := by
    rw [hbase]
    apply List.filter_congr
    intro x hx
    have hxJ : x ∈ (logProd ms).inputs := (List.mem_filter.mp hx).1
    apply decide_eq_decide.mpr
    have h5 := H5 x hxJ
    have h4 := H4 x
    have hs := @hsub x
    simp only [Finset.mem_inter, Finset.mem_sdiff, Finset.mem_union]
    constructor
    · rintro ⟨⟨hpvm, hnin⟩, hpv1⟩
      have hgp : x ∈ g_pv := by
        rcases h5 with h | h
        · exact h
        · exact absurd hpv1 (h4 h)
      exact ⟨⟨Or.inl hgp, hnin⟩, hgp⟩
    · rintro ⟨⟨hpvm, hnin⟩, hgp⟩
      exact ⟨⟨Or.inl (hs hgp), hnin⟩, hs hgp⟩
  rw [hL, hA]

theorem mem_unL (x : String) (a b : List String) :
    x ∈ unL a b ↔ x ∈ a ∨ x ∈ b := by
  unfold unL
  simp only [List.mem_append, List.mem_filter, Bool.not_eq_eq_eq_not,
    Bool.not_true, decide_eq_false_iff_not]
  constructor
  · rintro (h | ⟨h, _⟩)
    · exact Or.inl h
    · exact Or.inr h
  · rintro (h | h)
    · exact Or.inl h
    · by_cases ha : x ∈ a
      · exact Or.inl ha
      · exact Or.inr ⟨h, ha⟩

theorem unL_nodup {a b : List String} (ha : a.Nodup) (hb : b.Nodup) :
    (unL a b).Nodup := by
  unfold unL
  rw [List.nodup_append]
  refine ⟨ha, hb.filter _, ?_⟩
  intro x hxa hxb
  have := (List.mem_filter.mp hxb).2
  simp only [Bool.not_eq_eq_eq_not, Bool.not_true, decide_eq_false_iff_not]
    at this
  exact this hxa

theorem logProd_inputs_nodup (fs : List Factor)
    (h : ∀ f ∈ fs, f.inputs.Nodup) : (logProd fs).inputs.Nodup := by
  induction fs with
  | nil => exact List.nodup_nil
  | cons f rest ih =>
      exact unL_nodup (h f (List.mem_cons_self f rest))
        (ih (fun g hg => h g (List.mem_cons_of_mem f hg)))

theorem filter_mem_toFinset (l : List String) :
    l.filter (fun x => decide (x ∈ l.toFinset)) = l :=
  List.filter_eq_self.mpr (fun a ha => by simp [ha])

/-- The value of the Markov path's per-cost term, with its two additive
reductions flattened into one reduction list. -/
theorem integrate_reduceAll_val (C : SemCtx) (lp f : Factor)
    (S : Finset String) :
    ((Integrate C lp f S).reduceAddAll C).val
      = reduceAddList C
          ((unL lp.inputs f.inputs).filter (fun x => !(decide (x ∈ S))) ++
            (unL lp.inputs f.inputs).filter (fun x => decide (x ∈ S)))
          (fun σ => C.exp (lp.val σ) * f.val σ) := by
  unfold Factor.reduceAddAll Integrate Factor.reduceAdd
  dsimp only
  rw [reduceAddList_append, filter_mem_toFinset]

/-- The value of the plate-parallel path's per-cost term, with its two
additive reductions flattened into one reduction list. -/
theorem integrate_reduceAdd_val (C : SemCtx) (lp f : Factor)
    (S T : Finset String) :
    ((Integrate C lp f S).reduceAdd C T).val
      = reduceAddList C
          (((unL lp.inputs f.inputs).filter
              (fun x => !(decide (x ∈ S)))).filter
            (fun x => decide (x ∈ T)) ++
            (unL lp.inputs f.inputs).filter (fun x => decide (x ∈ S)))
          (fun σ => C.exp (lp.val σ) * f.val σ) := by
  unfold Integrate Factor.reduceAdd
  dsimp only
  rw [reduceAddList_append]

/-- On a model without sequential plates (and with a well-formed guide), the
per-cost contribution of the Markov path — Integrate against the recovered
marginal over the cost's inputs then reduce everything — has the same value
as that of the plate-parallel path — Integrate over measure variables then
reduce the plates. -/
theorem per_cost_val_eq (C : SemCtx) (gt : TermBundle) (pv : Finset String)
    (cost q : Factor)
    (hgkeys : gt.plate_to_step.keys = gt.plate_vars)
    (hsub : gt.plate_vars ⊆ pv)
    (H3 : ∀ x ∈ cost.inputs, x ∈ gt.measure_vars ∪ pv)
    (H4 : ∀ x ∈ gt.measure_vars, x ∉ pv)
    (H5 : ∀ x ∈ (logProd gt.log_measures).inputs,
      x ∈ gt.plate_vars ∨ x ∈ gt.measure_vars)
    (hms_nd : ∀ f ∈ gt.log_measures, f.inputs.Nodup)
    (hq_in : q.inputs.toFinset = cost.inputs.toFinset)
    (hq_val : q.val = (sum_product C gt.log_measures gt.plate_to_step.keys
        ((gt.plate_to_step.keys ∪ gt.measure_vars) \ cost.inputs.toFinset)).val)
    (hq_nd : q.inputs.Nodup)
    (hc_nd : cost.inputs.Nodup) :
    (markovElboTerm C gt q cost).val = (enumElboTerm C gt pv cost).val := by
  have hlp : q.val = (sum_product C gt.log_measures pv
      ((pv ∪ gt.measure_vars) \ cost.inputs.toFinset)).val := by
    rw [hq_val, hgkeys]
    exact (marginal_val_eq C gt.log_measures gt.plate_vars pv gt.measure_vars
      cost.inputs.toFinset hsub H4 H5).symm
  have hIm : unL q.inputs cost.inputs = q.inputs := by
    unfold unL
    have hnil : cost.inputs.filter (fun x => !(decide (x ∈ q.inputs))) = [] := by
      rw [List.filter_eq_nil_iff]
      intro x hx
      simp only [Bool.not_eq_true', decide_eq_false_iff_not,
        Decidable.not_not]
      exact List.mem_toFinset.mp (hq_in ▸ List.mem_toFinset.mpr hx)
    rw [hnil, List.append_nil]
  have lp_nd : (sum_product C gt.log_measures pv
      ((pv ∪ gt.measure_vars) \ cost.inputs.toFinset)).inputs.Nodup := by
    unfold sum_product Factor.reduceAdd Factor.reduceLse
    exact ((logProd_inputs_nodup _ hms_nd).filter _).filter _
  -- the flattened reduction lists of the two sides
  have hM : ((unL q.inputs cost.inputs).filter
        (fun x => !(decide (x ∈ cost.inputs.toFinset \ gt.plate_to_step.keys)))
          ++ (unL q.inputs cost.inputs).filter
        (fun x => decide (x ∈ cost.inputs.toFinset \ gt.plate_to_step.keys))).Perm
      q.inputs := by
    rw [hIm]
    exact List.perm_append_comm.trans (List.filter_append_perm _ _)
  have hdisj : ∀ x ∈ pv ∩ cost.inputs.toFinset,
      x ∉ gt.measure_vars ∩ cost.inputs.toFinset := by
    intro x hx hmem
    exact H4 x (Finset.mem_inter.mp hmem).1 (Finset.mem_inter.mp hx).1
  have hunion : (pv ∩ cost.inputs.toFinset)
      ∪ (gt.measure_vars ∩ cost.inputs.toFinset) = cost.inputs.toFinset := by
    ext x
    simp only [Finset.mem_union, Finset.mem_inter]
    constructor
    · rintro (⟨_, h⟩ | ⟨_, h⟩) <;> exact h
    · intro hx
      rcases Finset.mem_union.mp
          (H3 x (List.mem_toFinset.mp hx)) with h | h
      · exact Or.inr ⟨h, hx⟩
      · exact Or.inl ⟨h, hx⟩
  have hE : ∀ lpin : List String, lpin.Nodup →
      ((((unL lpin cost.inputs).filter
          (fun x => !(decide (x ∈ gt.measure_vars ∩ cost.inputs.toFinset)))).filter
            (fun x => decide (x ∈ pv ∩ cost.inputs.toFinset)) ++
        (unL lpin cost.inputs).filter
          (fun x => decide (x ∈ gt.measure_vars ∩ cost.inputs.toFinset)))).Perm
        q.inputs := by
    intro lpin hlpin_nd
    have e1 : ((unL lpin cost.inputs).filter
          (fun x => !(decide (x ∈ gt.measure_vars ∩ cost.inputs.toFinset)))).filter
            (fun x => decide (x ∈ pv ∩ cost.inputs.toFinset))
        = (unL lpin cost.inputs).filter
            (fun x => decide (x ∈ pv ∩ cost.inputs.toFinset)) := by
      rw [List.filter_filter]
      apply List.filter_congr
      intro x _
      by_cases hx2 : x ∈ pv ∩ cost.inputs.toFinset
      · have hx1 : x ∉ gt.measure_vars ∩ cost.inputs.toFinset := hdisj x hx2
        simp [hx2, hx1]
      · simp [hx2]
    rw [e1]
    have e3 := (filter_union_perm (unL lpin cost.inputs)
      (pv ∩ cost.inputs.toFinset) (gt.measure_vars ∩ cost.inputs.toFinset)
      hdisj).symm
    refine e3.trans ?_
    rw [hunion]
    apply List.perm_of_nodup_nodup_toFinset_eq
      ((unL_nodup hlpin_nd hc_nd).filter _) hq_nd
    rw [hq_in]
    ext x
    simp only [List.mem_toFinset, List.mem_filter, decide_eq_true_eq]
    constructor
    · rintro ⟨_, h⟩
      exact h
    · intro hx
      exact ⟨(mem_unL x _ _).mpr (Or.inr hx), hx⟩
  show ((Integrate C q cost
      (cost.inputs.toFinset \ gt.plate_to_step.keys)).reduceAddAll C).val = _
  rw [integrate_reduceAll_val]
  show _ = ((Integrate C
      (sum_product C gt.log_measures pv
        ((pv ∪ gt.measure_vars) \ cost.inputs.toFinset))
      cost (gt.measure_vars ∩ cost.inputs.toFinset)).reduceAdd C
      (pv ∩ cost.inputs.toFinset)).val
  rw [integrate_reduceAdd_val]
  have hIv : (fun σ => C.exp (q.val σ) * cost.val σ)
      = (fun σ => C.exp ((sum_product C gt.log_measures pv
          ((pv ∪ gt.measure_vars) \ cost.inputs.toFinset)).val σ)
            * cost.val σ) := by
    rw [hlp]
  rw [hIv]
  exact reduceAddList_perm C
    (hM.trans (hE (sum_product C gt.log_measures pv
      ((pv ∪ gt.measure_vars) \ cost.inputs.toFinset)).inputs lp_nd).symm) _

/-- Without sequential plates the Markov path's cost list coincides with the
plate-parallel path's. -/
theorem markovCosts_eq_enum (C : SemCtx) (gt mt : TermBundle)
    (hsteps : ∀ p ∈ mt.plate_to_step.keys, mt.plate_to_step.get p = ∅)
    (hkeys : mt.plate_to_step.keys = mt.plate_vars) :
    markovContractedCosts C mt = enumContractedCosts C mt ∧
    markovCostsList C gt mt = enumCostsList C gt mt := by
  have h1 : markovContractedCosts C mt = enumContractedCosts C mt := by
    unfold markovContractedCosts enumContractedCosts
    rw [modified_psp_no_seq C _ _ _ hsteps, hkeys]
    unfold markovModelEliminate enumEliminate
    rw [markovDims_empty _ hsteps, Finset.union_empty]
  refine ⟨h1, ?_⟩
  unfold markovCostsList enumCostsList
  rw [h1]

theorem foldlM_costs_eq (C : SemCtx) (gt : TermBundle) (pv : Finset String)
    (LQ : List Factor) :
    ∀ l : List Factor,
      (∀ c ∈ l, ∃ q, lookupLogQ LQ c = some q ∧
        (markovElboTerm C gt q c).val = (enumElboTerm C gt pv c).val) →
      ∀ eM eE : Factor, eM.val = eE.val →
      ∃ r, l.foldlM (fun e cost => (lookupLogQ LQ cost).map
          (fun lp => addF e (markovElboTerm C gt lp cost))) eM = some r ∧
        r.val = (l.foldl (fun e c => addF e (enumElboTerm C gt pv c)) eE).val := by
  intro l
  induction l with
  | nil =>
      intro _ eM eE h
      exact ⟨eM, rfl, h⟩
  | cons c rest ih =>
      intro hall eM eE hval
      obtain ⟨q, hq, hterm⟩ := hall c (List.mem_cons_self c rest)
      have hnext : (addF eM (markovElboTerm C gt q c)).val
          = (addF eE (enumElboTerm C gt pv c)).val := by
        funext σ
        show eM.val σ + (markovElboTerm C gt q c).val σ
          = eE.val σ + (enumElboTerm C gt pv c).val σ
        rw [congrFun hval σ, congrFun hterm σ]
      obtain ⟨r, hr1, hr2⟩ := ih
        (fun d hd => hall d (List.mem_cons_of_mem c hd))
        (addF eM (markovElboTerm C gt q c))
        (addF eE (enumElboTerm C gt pv c)) hnext
      refine ⟨r, ?_, ?_⟩
      · rw [List.foldlM_cons]
        have hstep : (lookupLogQ LQ c).map
            (fun lp => addF eM (markovElboTerm C gt lp c))
            = some (addF eM (markovElboTerm C gt q c)) := by
          rw [hq]
          rfl
        rw [hstep]
        exact hr1
      · rw [List.foldl_cons]
        exact hr2

/-- Under the nine well-formedness hypotheses (empty step descriptors,
plate_to_step keys exhausted by the plate variables, cost-input coverage,
measure/plate disjointness, guide measures over guide variables,
duplicate-free inputs, and marginal-lookup success) the two loss paths agree
exactly. Kept as a standalone result: it quantifies the gap between the
counterexample below and full agreement. -/
theorem losses_agree_of_wellformed (C : SemCtx)
    (guide_tr model_tr : List Node)
    (hg_keys : (terms_from_trace guide_tr).1.plate_to_step.keys
      = (terms_from_trace guide_tr).1.plate_vars)
    (hm_steps : ∀ p ∈ (terms_from_trace model_tr).1.plate_to_step.keys,
      (terms_from_trace model_tr).1.plate_to_step.get p = ∅)
    (hm_keys : (terms_from_trace model_tr).1.plate_to_step.keys
      = (terms_from_trace model_tr).1.plate_vars)
    (h5 : ∀ c ∈ enumCostsList C (terms_from_trace guide_tr).1
        (terms_from_trace model_tr).1, ∀ x ∈ c.inputs,
      x ∈ (terms_from_trace guide_tr).1.measure_vars ∪
        ((terms_from_trace guide_tr).1.plate_vars
          ∪ (terms_from_trace model_tr).1.plate_vars))
    (h6 : ∀ x ∈ (terms_from_trace guide_tr).1.measure_vars,
      x ∉ (terms_from_trace guide_tr).1.plate_vars
        ∪ (terms_from_trace model_tr).1.plate_vars)
    (h7 : ∀ x ∈ (logProd (terms_from_trace guide_tr).1.log_measures).inputs,
      x ∈ (terms_from_trace guide_tr).1.plate_vars
        ∨ x ∈ (terms_from_trace guide_tr).1.measure_vars)
    (h8 : ∀ f ∈ (terms_from_trace guide_tr).1.log_measures, f.inputs.Nodup)
    (h9 : ∀ c ∈ enumCostsList C (terms_from_trace guide_tr).1
        (terms_from_trace model_tr).1, c.inputs.Nodup)
    (h10 : ∀ c ∈ enumCostsList C (terms_from_trace guide_tr).1
        (terms_from_trace model_tr).1,
      ∃ t ∈ markovTargets C (terms_from_trace guide_tr).1
        (terms_from_trace model_tr).1,
        t.inputs.toFinset = c.inputs.toFinset) :
    TraceMarkovEnum_differentiable_loss C guide_tr model_tr
      = some (TraceEnum_differentiable_loss C guide_tr model_tr) := by
  set gt := (terms_from_trace guide_tr).1 with hgt
  set mt := (terms_from_trace model_tr).1 with hmt
  obtain ⟨hcc, hcosts⟩ := markovCosts_eq_enum C gt mt hm_steps hm_keys
  have htargets_nd : ∀ t ∈ markovTargets C gt mt, t.inputs.Nodup := by
    intro t ht
    unfold markovTargets at ht
    rcases List.mem_append.mp ht with h | h
    · obtain ⟨c', hc', hpr⟩ := List.mem_map.mp h
      have hc'' : c' ∈ enumCostsList C gt mt := by
        rw [← hcosts]
        unfold markovCostsList
        exact List.mem_append.mpr (Or.inl hc')
      have : t.inputs = c'.inputs := by rw [← hpr]; rfl
      rw [this]
      exact h9 c' hc''
    · exact h8 t h
  have hper : ∀ c ∈ markovCostsList C gt mt, ∃ q,
      lookupLogQ (markovLogQs C gt mt) c = some q ∧
      (markovElboTerm C gt q c).val
        = (enumElboTerm C gt (gt.plate_vars ∪ mt.plate_vars) c).val := by
    intro c hc
    have hc2 : c ∈ enumCostsList C gt mt := hcosts ▸ hc
    obtain ⟨t, ht, htin⟩ := h10 c hc2
    have hsome : (lookupLogQ (markovLogQs C gt mt) c).isSome = true := by
      unfold lookupLogQ
      rw [List.find?_isSome]
      refine ⟨adjointMarginal C gt t, List.mem_map.mpr ⟨t, ht, rfl⟩, ?_⟩
      exact decide_eq_true htin
    obtain ⟨q, hq⟩ := Option.isSome_iff_exists.mp hsome
    have hq' : (markovLogQs C gt mt).find?
        (fun r => decide (r.inputs.toFinset = c.inputs.toFinset)) = some q := hq
    have hqmem : q ∈ markovLogQs C gt mt := List.mem_of_find?_eq_some hq'
    have hqpred : q.inputs.toFinset = c.inputs.toFinset :=
      of_decide_eq_true (find?_pred hq')
    obtain ⟨t2, ht2, hq_eq⟩ := List.mem_map.mp hqmem
    have ht2in : t2.inputs.toFinset = c.inputs.toFinset := by
      rw [← hqpred, ← hq_eq]
      rfl
    have hqval : q.val = (sum_product C gt.log_measures gt.plate_to_step.keys
        ((gt.plate_to_step.keys ∪ gt.measure_vars) \ c.inputs.toFinset)).val := by
      rw [← hq_eq]
      show (sum_product C gt.log_measures gt.plate_to_step.keys
        ((gt.plate_to_step.keys ∪ gt.measure_vars) \ t2.inputs.toFinset)).val
        = _
      rw [ht2in]
    have hqnd : q.inputs.Nodup := by
      have hqi : q.inputs = t2.inputs := by
        rw [← hq_eq]
        rfl
      rw [hqi]
      exact htargets_nd t2 ht2
    exact ⟨q, hq, per_cost_val_eq C gt (gt.plate_vars ∪ mt.plate_vars) c q
      hg_keys Finset.subset_union_left (h5 c hc2) h6 h7 h8 hqpred hqval hqnd
      (h9 c hc2)⟩
  obtain ⟨r, hr1, hr2⟩ := foldlM_costs_eq C gt (gt.plate_vars ∪ mt.plate_vars)
    (markovLogQs C gt mt) (markovCostsList C gt mt) hper zeroF zeroF rfl
  have hm : markovElbo C gt mt = some r := hr1
  show (markovElbo C gt mt).map (fun e => -(e.val defaultAssign))
    = some (-((enumElbo C gt mt).val defaultAssign))
  rw [hm, Option.map_some']
  congr 1
  rw [congrFun hr2 defaultAssign]
  show -(((markovCostsList C gt mt).foldl
      (fun e c => addF e (enumElboTerm C gt (gt.plate_vars ∪ mt.plate_vars) c))
      zeroF).val defaultAssign) = _
  rw [hcosts]
  rfl

/-- C5 (amended): with an all-empty `plate_to_step` (no sequential plates),
modified_partial_sum_product produces the same residual factors as
partial_sum_product for the same factor list and eliminate set, with the
dict's keys as the plates; but the claimed consequence for the losses fails:
TraceMarkovEnum_ELBO.differentiable_loss and TraceEnum_ELBO.differentiable_loss
do not agree on every such model — there is a model/guide pair without
sequential plates on which the Markov path fails (StopIteration at the
line-114 marginal lookup) while the plate-parallel path returns a value. -/
theorem C5_no_sequential_equivalence :
    (∀ (C : SemCtx) (factors : List Factor) (m : Pmap) (elim : Finset String),
      (∀ p ∈ m.keys, m.get p = ∅) →
      modified_partial_sum_product C factors m elim
        = partial_sum_product C factors m.keys elim) ∧
    ∃ (C : SemCtx) (guide_tr model_tr : List Node),
      (∀ p ∈ (terms_from_trace guide_tr).1.plate_to_step.keys,
        (terms_from_trace guide_tr).1.plate_to_step.get p = ∅) ∧
      (∀ p ∈ (terms_from_trace model_tr).1.plate_to_step.keys,
        (terms_from_trace model_tr).1.plate_to_step.get p = ∅) ∧
      TraceMarkovEnum_differentiable_loss C guide_tr model_tr
        ≠ some (TraceEnum_differentiable_loss C guide_tr model_tr) := by
  refine ⟨fun C factors m elim h => modified_psp_no_seq C factors m elim h,
    Cex, exGuideTrBad, exModelTrBad, by decide, by decide, ?_⟩
  have h : TraceMarkovEnum_differentiable_loss Cex exGuideTrBad exModelTrBad
      = none := by decide
  rw [h]
  exact Ne.symm (Option.some_ne_none _)

/-- C5 (counterexample): a model/guide pair with no sequential plates (every
`plate_to_step` entry is empty — here there are none at all) on which the
Markov path fails with StopIteration (no recovered marginal matches the
negated density of the observed guide site over `y`), while the
plate-parallel path returns a value: the two paths do not agree on every
model without sequential plates. -/
theorem C5_counterexample :
    (∀ p ∈ (terms_from_trace exGuideTrBad).1.plate_to_step.keys,
      (terms_from_trace exGuideTrBad).1.plate_to_step.get p = ∅) ∧
    (∀ p ∈ (terms_from_trace exModelTrBad).1.plate_to_step.keys,
      (terms_from_trace exModelTrBad).1.plate_to_step.get p = ∅) ∧
    TraceMarkovEnum_differentiable_loss Cex exGuideTrBad exModelTrBad
      = none ∧
    (some (TraceEnum_differentiable_loss Cex exGuideTrBad exModelTrBad)
      ≠ (none : Option ℚ)) := by
  exact ⟨by decide, by decide, by decide, Option.some_ne_none _⟩

/-- The well-formedness conditions of `losses_agree_of_wellformed` are
satisfiable at a concrete trace pair, where both losses evaluate. -/
theorem losses_agree_example :
    TraceMarkovEnum_differentiable_loss Cex exGuideTr exModelTr
      = some (TraceEnum_differentiable_loss Cex exGuideTr exModelTr) :=
  losses_agree_of_wellformed Cex exGuideTr exModelTr (by decide)
    (by decide) (by decide) (by decide) (by decide) (by decide) (by decide)
    (by decide) (by decide)

end PyroElbo
